import Mathlib

set_option maxRecDepth 100000

set_option linter.unusedVariables false

/-!
Verification of `news_scraper_v2.py` (class `NewsScraperV2`).

Shallow embedding conventions:
* Python strings are `List Char`.
* The network / feedparser / newspaper3k effects are an explicit
  environment (`Env`): `fetchFeed` maps a feed URL to either the parsed
  entry list (`feedparser.parse(url).entries`; feedparser swallows
  transport errors and then yields an empty entry list) or an exception
  (`Except.error`, propagating to the per-source `try` block);
  `scrape` maps an article URL to the fields produced by
  `newspaper.Article` download/parse/nlp, with `none` standing for any
  exception caught by `scrape_article`'s own `try`; `clock` supplies
  `datetime.now().isoformat()` at each `scrape_article` call.
* The regex substitutions of `scrape_article` (`re.sub` with
  `re.DOTALL | re.IGNORECASE`) are modelled by fuel-indexed scanners
  that follow `re.sub`'s leftmost, non-overlapping scan; fuel equal to
  the input length always suffices since every step consumes at least
  one input character.  ASCII lower-casing models `str.lower` /
  `re.IGNORECASE` (all pattern literals are ASCII).
-/

/-- ASCII lower-casing of one character, modelling `str.lower` and
`re.IGNORECASE` on the ASCII pattern literals of the program. -/
def lowerChar (c : Char) : Char :=
  if 'A' ≤ c && c ≤ 'Z' then Char.ofNat (c.toNat + 32) else c

/-- Python whitespace (`\s` and `str.strip`): space, tab, newline,
carriage return, vertical tab, form feed. -/
def isSpaceB (c : Char) : Bool :=
  c = ' ' || c = '\t' || c = '\n' || c = '\r' || c = '\x0b' || c = '\x0c'

/-- Does `l` start with the (already lower-cased) literal `pat`,
comparing case-insensitively? -/
def startsWithCI (pat : List Char) (l : List Char) : Bool :=
  match pat, l with
  | [], _ => true
  | _ :: _, [] => false
  | p :: ps, c :: cs => lowerChar c = p && startsWithCI ps cs

/-- Substring test (Python's `in` on strings): does `needle` occur as a
contiguous substring of the second argument? -/
def containsSub (needle : List Char) : List Char → Bool
  | [] => needle.isEmpty
  | c :: rest => needle.isPrefixOf (c :: rest) || containsSub needle rest

/-- Literal prefix of the first ad pattern
`How relevant is this ad to you\?.*?Other` (lower-cased). -/
def howRelevantLit : List Char := "how relevant is this ad to you?".data

/-- Literal prefix of the second ad pattern
`Video player was slow to load content.*?Other` (lower-cased). -/
def videoPlayerLit : List Char := "video player was slow to load content".data

/-- Literal of the third ad pattern `Advertisement\s*` (lower-cased). -/
def advLit : List Char := "advertisement".data

/-- Literal terminator `Other` of the first two ad patterns. -/
def otherLit : List Char := "other".data

/-- Drop everything up to and including the first case-insensitive
occurrence of `pat`; `none` when `pat` does not occur.  This realises
the lazy `.*?Other` tail of the first two ad patterns under `re.DOTALL`
(the dot crosses newlines, laziness picks the earliest `Other`). -/
def dropThroughCI (pat : List Char) : List Char → Option (List Char)
  | [] => none
  | c :: rest =>
    if startsWithCI pat (c :: rest) then some (List.drop pat.length (c :: rest))
    else dropThroughCI pat rest

/-- Fuel-indexed `re.sub(prefix ++ ".*?Other", '', text)` scanner: at each
position, if the literal `p` matches case-insensitively and some `Other`
follows, delete through that earliest `Other` and continue after it;
otherwise emit the character and advance one position. -/
def subPOF (p : List Char) : Nat → List Char → List Char
  | 0, l => l
  | _ + 1, [] => []
  | n + 1, c :: rest =>
    if startsWithCI p (c :: rest) then
      match dropThroughCI otherLit (List.drop p.length (c :: rest)) with
      | some tail => subPOF p n tail
      | none => c :: subPOF p n rest
    else c :: subPOF p n rest

/-- Result of `re.sub` for the pattern `p ++ ".*?Other"` (fuel instantiated
at the input length, which always suffices). -/
def subPO (p : List Char) (l : List Char) : List Char := subPOF p l.length l

/-- Fuel-indexed `re.sub(r'Advertisement\s*', '', text)` scanner: a
case-insensitive occurrence of `Advertisement` plus the maximal following
whitespace run is deleted and scanning continues after it. -/
def subAdvF : Nat → List Char → List Char
  | 0, l => l
  | _ + 1, [] => []
  | n + 1, c :: rest =>
    if startsWithCI advLit (c :: rest) then
      subAdvF n (List.dropWhile isSpaceB (List.drop advLit.length (c :: rest)))
    else c :: subAdvF n rest

/-- Result of `re.sub(r'Advertisement\s*', '', text)`. -/
def subAdv (l : List Char) : List Char := subAdvF l.length l

/-- The ad-pattern removal loop of `scrape_article` (lines 92-100): the
three `re.sub` passes in the order of `ad_patterns`. -/
def removeAds (l : List Char) : List Char :=
  subAdv (subPO videoPlayerLit (subPO howRelevantLit l))

/-- Given the remainder after a leading `'\n'`, split off the whitespace
prefix up to and including its last newline: this is exactly the region a
greedy `\s*` (followed by a mandatory `\n`) consumes in `\n\s*\n`.
Returns `none` when the whitespace prefix contains no newline, i.e. when
the regex fails to match at this position. -/
def lastNlSplit : List Char → Option (List Char × List Char)
  | [] => none
  | c :: rest =>
    if c = '\n' then
      match lastNlSplit rest with
      | some (pre, tail) => some ('\n' :: pre, tail)
      | none => some (['\n'], rest)
    else if isSpaceB c then
      match lastNlSplit rest with
      | some (pre, tail) => some (c :: pre, tail)
      | none => none
    else none

/-- Fuel-indexed `re.sub(r'\n\s*\n', '\n\n', text)` scanner: at a `'\n'`
whose following whitespace run contains another newline, the match (up to
the last such newline, by greediness) is replaced by two newlines and
scanning continues after it; all other characters are emitted verbatim. -/
def collapseF : Nat → List Char → List Char
  | 0, l => l
  | _ + 1, [] => []
  | n + 1, c :: rest =>
    if c = '\n' then
      match lastNlSplit rest with
      | some (_, tail) => '\n' :: '\n' :: collapseF n tail
      | none => '\n' :: collapseF n rest
    else c :: collapseF n rest

/-- Result of `re.sub(r'\n\s*\n', '\n\n', text)`. -/
def collapse (l : List Char) : List Char := collapseF l.length l

/-- Python `str.strip()`: remove leading and trailing whitespace. -/
def pyStrip (l : List Char) : List Char :=
  ((l.dropWhile isSpaceB).reverse.dropWhile isSpaceB).reverse

/-- The full text post-processing of `scrape_article` (lines 92-103), in
the source's order: ad-pattern removal, then `.strip()`, then the
blank-line collapsing substitution. -/
def cleanText (l : List Char) : List Char := collapse (pyStrip (removeAds l))

/-- Post-processing in the order stated by the specification (§4.3 step 4):
ad-pattern removal, then blank-line collapsing, then trimming last. -/
def cleanTextSpecOrder (l : List Char) : List Char := pyStrip (collapse (removeAds l))

/-- One RSS feed entry as consumed by `search_rss_feeds`: the fields read
via `entry.get('title', '')`, `entry.get('summary', '')`,
`entry.get('link', '')` and `entry.get('published', '')`; a missing key is
the empty string. -/
structure Entry where
  title : List Char
  summary : List Char
  link : List Char
  published : List Char

deriving DecidableEq

/-- The fields of a `newspaper.Article` after `download()`, `parse()` and
the best-effort `nlp()` (lines 78-89 and 105-115): `summary` and
`keywords` default to empty when `nlp()` failed, `publishDate` carries
`publish_date.isoformat()` when a date was parsed. -/
structure RawArticle where
  title : List Char
  authors : List (List Char)
  publishDate : Option (List Char)
  text : List Char
  summary : List Char
  keywords : List (List Char)
  topImage : List Char

deriving DecidableEq

/-- The dictionary returned by `scrape_article` (lines 105-115). -/
structure ScrapedArticle where
  url : List Char
  title : List Char
  authors : List (List Char)
  publishDate : Option (List Char)
  text : List Char
  summary : List Char
  keywords : List (List Char)
  topImage : List Char
  scrapedAt : List Char

deriving DecidableEq

/-- A scraped article after `search_rss_feeds` adds its four keys
(lines 179-182). -/
structure Record where
  url : List Char
  title : List Char
  authors : List (List Char)
  publishDate : Option (List Char)
  text : List Char
  summary : List Char
  keywords : List (List Char)
  topImage : List Char
  scrapedAt : List Char
  source : List Char
  searchKeyword : List Char
  rssTitle : List Char
  rssPublished : List Char

deriving DecidableEq

/-- The effectful collaborators of the scraper, fixed for one run:
`fetchFeed` is `feedparser.parse(url).entries` (an `Except.error` models
an exception escaping into the per-source `try` of `search_rss_feeds`;
feedparser's own error handling surfaces as `.ok []`); `scrape` is the
outcome of `newspaper.Article` download/parse/nlp, `none` modelling any
exception caught inside `scrape_article`; `clock` is
`datetime.now().isoformat()` observed during the scrape of a URL. -/
structure Env where
  fetchFeed : List Char → Except Unit (List Entry)
  scrape : List Char → Option RawArticle
  clock : List Char → List Char

/-- The `NEWS_SOURCES` configuration (lines 37-55), in Python dict
insertion order: source name paired with its ordered (feed name, feed
URL) list. -/
def NEWS_SOURCES : List (List Char × List (List Char × List Char)) :=
  [("CNN".data,
     [("rss".data, "http://rss.cnn.com/rss/cnn_topstories.rss".data),
      ("world".data, "http://rss.cnn.com/rss/cnn_world.rss".data)]),
   ("BBC News".data,
     [("rss".data, "http://feeds.bbci.co.uk/news/rss.xml".data),
      ("world".data, "http://feeds.bbci.co.uk/news/world/rss.xml".data)]),
   ("Al Jazeera".data,
     [("rss".data, "https://www.aljazeera.com/xml/rss/all.xml".data)]),
   ("NPR".data,
     [("rss".data, "https://feeds.npr.org/1001/rss.xml".data)]),
   ("The Guardian".data,
     [("rss".data, "https://www.theguardian.com/world/rss".data)])]

/-- Embedding of `scrape_article` (lines 75-117): any exception from
download/parse yields `None`; otherwise the body and the nlp summary are
cleaned by the regex pipeline and the dictionary of lines 105-115 is
returned, stamped with the current time. -/
def scrape_article (env : Env) (url : List Char) : Option ScrapedArticle :=
  match env.scrape url with
  | none => none
  | some raw =>
    some { url := url
           title := raw.title
           authors := raw.authors
           publishDate := raw.publishDate
           text := cleanText raw.text
           summary := cleanText raw.summary
           keywords := raw.keywords
           topImage := raw.topImage
           scrapedAt := env.clock url }

/-- The keyword test of lines 158-161: case-insensitive substring match
of the (pre-lowered) keyword against the entry's title or summary. -/
def matchesKeyword (kwLower : List Char) (e : Entry) : Bool :=
  containsSub kwLower (e.title.map lowerChar)
    || containsSub kwLower (e.summary.map lowerChar)

/-- The `matching_entries` list built by the filter loop of lines
156-162 (appending exactly the entries passing the keyword test, in feed
order, is `List.filter`). -/
def matchingEntries (kwLower : List Char) (entries : List Entry) : List Entry :=
  entries.filter (matchesKeyword kwLower)

/-- Record assembly at lines 179-183: the scraped dictionary plus the
`source`, `search_keyword`, `rss_title` and `rss_published` keys. -/
def mkRecord (srcName keyword : List Char) (e : Entry) (a : ScrapedArticle) : Record :=
  { url := a.url
    title := a.title
    authors := a.authors
    publishDate := a.publishDate
    text := a.text
    summary := a.summary
    keywords := a.keywords
    topImage := a.topImage
    scrapedAt := a.scrapedAt
    source := srcName
    searchKeyword := keyword
    rssTitle := e.title
    rssPublished := e.published }

/-- The per-entry body of the scrape loop (lines 171-184), cap check
aside: skip an entry without a link (`continue`), scrape, and accept the
article only when its cleaned body text is strictly longer than 200
characters (line 178). -/
def entryRecord (env : Env) (srcName keyword : List Char) (e : Entry) : Option Record :=
  if e.link = [] then none
  else
    match scrape_article env e.link with
    | none => none
    | some art =>
      if 200 < art.text.length then some (mkRecord srcName keyword e art) else none

/-- The scrape loop over `matching_entries[:max - len(source_articles)]`
(lines 167-186): before each entry the cap is re-checked (`break`), then
the entry either contributes one appended record or is skipped. -/
def processEntries (env : Env) (srcName keyword : List Char) (m : Int) :
    List Entry → List Record → List Record
  | [], acc => acc
  | e :: es, acc =>
    if m ≤ (acc.length : Int) then acc
    else
      match entryRecord env srcName keyword e with
      | some r => processEntries env srcName keyword m es (acc ++ [r])
      | none => processEntries env srcName keyword m es acc

/-- The feed loop of one source (lines 145-186): stop when the cap is
reached, propagate an unexpected exception to the source-level `try`,
skip a feed with no entries (`continue`), otherwise filter the entries
by keyword, slice to the remaining budget, and run the scrape loop. -/
def processFeeds (env : Env) (kwLower srcName keyword : List Char) (m : Int) :
    List (List Char × List Char) → List Record → Except Unit (List Record)
  | [], acc => .ok acc
  | (_, feedUrl) :: fs, acc =>
    if m ≤ (acc.length : Int) then .ok acc
    else
      match env.fetchFeed feedUrl with
      | .error e => .error e
      | .ok entries =>
        if entries = [] then processFeeds env kwLower srcName keyword m fs acc
        else
          processFeeds env kwLower srcName keyword m fs
            (processEntries env srcName keyword m
              ((matchingEntries kwLower entries).take (m - (acc.length : Int)).toNat) acc)

/-- What one configured source ends up contributing to `all_articles`:
its accumulated `source_articles` on normal completion, nothing when an
exception reached the per-source `except` (lines 188-193). -/
def sourceRecords (env : Env) (keyword : List Char) (m : Int)
    (src : List Char × List (List Char × List Char)) : List Record :=
  match processFeeds env (keyword.map lowerChar) src.1 keyword m src.2 [] with
  | .ok arts => arts
  | .error _ => []

/-- Embedding of `search_rss_feeds` (lines 119-199): iterate the
configured sources in order, extending `all_articles` with each source's
records, a per-source exception leaving `all_articles` untouched. -/
def search_rss_feeds (env : Env) (keyword : List Char) (m : Int) : List Record :=
  NEWS_SOURCES.foldl
    (fun all src =>
      match processFeeds env (keyword.map lowerChar) src.1 keyword m src.2 [] with
      | .ok arts => all ++ arts
      | .error _ => all)
    []

/-- Does the string contain three consecutive newline characters?  Three
consecutive newlines are what any run of three-plus consecutive blank
lines must contain. -/
def hasTripleNl : List Char → Bool
  | a :: b :: c :: rest => (a = '\n' && b = '\n' && c = '\n') || hasTripleNl (b :: c :: rest)
  | _ => false

/-- True when the list is empty or does not begin with whitespace. -/
def headNotSpace : List Char → Bool
  | [] => true
  | c :: _ => !isSpaceB c

/-- Is there a position where the pattern `p ++ ".*?Other"` matches, i.e.
a case-insensitive occurrence of `p` with an `Other` somewhere after it? -/
def hasPOMatch (p : List Char) : List Char → Bool
  | [] => false
  | c :: rest =>
    (startsWithCI p (c :: rest)
        && (dropThroughCI otherLit (List.drop p.length (c :: rest))).isSome)
      || hasPOMatch p rest

/-- Is there a case-insensitive occurrence of `Advertisement`? -/
def hasAdvMatch : List Char → Bool
  | [] => false
  | c :: rest => startsWithCI advLit (c :: rest) || hasAdvMatch rest

/-- No position of the string matches any of the three ad patterns. -/
def adPatternFree (l : List Char) : Bool :=
  !hasPOMatch howRelevantLit l && !hasPOMatch videoPlayerLit l && !hasAdvMatch l

/-- Input on which ad-pattern removal is not idempotent: deleting the
inner `Advertisement` splices the surrounding characters into a fresh
occurrence, which only a second pass removes. -/
def c5Input : List Char := "AdvertAdvertisementisement".data

/-- Witness string for the amended C5 statement. -/
def c5Witness : List Char := "hello Advertisement world".data

/-- The keyword-matching entries one feed offers, error and empty feeds
offering none. -/
def feedMatched (env : Env) (kwLower : List Char) (f : List Char × List Char) :
    List Entry :=
  match env.fetchFeed f.2 with
  | .ok entries => matchingEntries kwLower entries
  | .error _ => []

/-- Every record one source could produce, in entry order: each matched
entry of each feed, passed through the per-entry acceptance step. -/
def sourceCandidates (env : Env) (kwLower srcName keyword : List Char)
    (fs : List (List Char × List Char)) : List Record :=
  ((fs.map (feedMatched env kwLower)).flatten).filterMap
    (entryRecord env srcName keyword)

/-- URL of CNN's `rss` feed in `NEWS_SOURCES`. -/
def cnnTopUrl : List Char := "http://rss.cnn.com/rss/cnn_topstories.rss".data

/-- URL of BBC's `rss` feed in `NEWS_SOURCES`. -/
def bbcRssUrl : List Char := "http://feeds.bbci.co.uk/news/rss.xml".data

/-- Article URL used by the concrete test environments. -/
def c1Url : List Char := "http://example.com/a1".data

/-- Feed entry whose title matches the keyword `news`. -/
def c1Entry : Entry :=
  { title := "Big News story".data
    summary := "about sports".data
    link := c1Url
    published := "Mon".data }

/-- Raw article whose body text cleans to exactly 200 characters. -/
def c1Raw200 : RawArticle :=
  { title := "T".data
    authors := []
    publishDate := none
    text := List.replicate 200 'a'
    summary := []
    keywords := []
    topImage := [] }

/-- Raw article whose body text cleans to exactly 201 characters. -/
def c1Raw201 : RawArticle :=
  { title := "T".data
    authors := []
    publishDate := none
    text := List.replicate 201 'a'
    summary := []
    keywords := []
    topImage := [] }

/-- Environment where CNN's first feed offers one matching entry whose
article body cleans to exactly 200 characters. -/
def c1Env200 : Env :=
  { fetchFeed := fun u => if u = cnnTopUrl then .ok [c1Entry] else .ok []
    scrape := fun u => if u = c1Url then some c1Raw200 else none
    clock := fun _ => "now".data }

/-- Same environment with a 201-character body. -/
def c1Env201 : Env :=
  { fetchFeed := fun u => if u = cnnTopUrl then .ok [c1Entry] else .ok []
    scrape := fun u => if u = c1Url then some c1Raw201 else none
    clock := fun _ => "now".data }

/-- The record `search_rss_feeds` produces in `c1Env201`. -/
def c1Record : Record :=
  { url := c1Url
    title := "T".data
    authors := []
    publishDate := none
    text := List.replicate 201 'a'
    summary := []
    keywords := []
    topImage := []
    scrapedAt := "now".data
    source := "CNN".data
    searchKeyword := "news".data
    rssTitle := "Big News story".data
    rssPublished := "Mon".data }

/-- Environment for the C7 witness: feed URL `gu` has a matching entry,
feed URL `bu` yields no entries. -/
def c7Env : Env :=
  { fetchFeed := fun u =>
      if u = "gu".data then .ok [c1Entry]
      else .ok []
    scrape := fun u => if u = c1Url then some c1Raw201 else none
    clock := fun _ => "now".data }

/-- The CNN entry of `NEWS_SOURCES`. -/
def cnnSource : List Char × List (List Char × List Char) :=
  NEWS_SOURCES.get ⟨0, by decide⟩

/-- The BBC entry of `NEWS_SOURCES`. -/
def bbcSource : List Char × List (List Char × List Char) :=
  NEWS_SOURCES.get ⟨1, by decide⟩

/-- Environment for the C8 witness: CNN's first feed raises, BBC's first
feed has one matching entry with an acceptable article. -/
def c8Env : Env :=
  { fetchFeed := fun u =>
      if u = cnnTopUrl then .error ()
      else if u = bbcRssUrl then .ok [c1Entry]
      else .ok []
    scrape := fun u => if u = c1Url then some c1Raw201 else none
    clock := fun _ => "now".data }

theorem dropThroughCI_length_le {pat : List Char} :
    ∀ {l t : List Char}, dropThroughCI pat l = some t → t.length ≤ l.length := by
  intro l
  induction l with
  | nil => intro t h; simp [dropThroughCI] at h
  | cons c rest ih =>
    intro t h
    by_cases hs : startsWithCI pat (c :: rest) = true
    · simp only [dropThroughCI, hs, if_true] at h
      cases h
      simp
    · simp only [dropThroughCI, hs] at h
      exact Nat.le_trans (ih h) (Nat.le_succ _)

theorem lastNlSplit_eq_append :
    ∀ {l pre tail : List Char}, lastNlSplit l = some (pre, tail) → l = pre ++ tail := by
  intro l
  induction l with
  | nil => intro pre tail h; simp [lastNlSplit] at h
  | cons c rest ih =>
    intro pre tail h
    by_cases hnl : c = '\n'
    · subst hnl
      rcases hrec : lastNlSplit rest with _ | ⟨p, t⟩
      · simp only [lastNlSplit, hrec, if_true] at h
        cases h
        rfl
      · simp only [lastNlSplit, hrec, if_true] at h
        cases h
        simpa using ih hrec
    · by_cases hsp : isSpaceB c = true
      · rcases hrec : lastNlSplit rest with _ | ⟨p, t⟩
        · simp [lastNlSplit, hnl, hsp, hrec] at h
        · simp only [lastNlSplit, hnl, hsp, hrec, if_true, if_false] at h
          cases h
          simpa using ih hrec
      · simp [lastNlSplit, hnl, hsp] at h

theorem lastNlSplit_pre_ne_nil :
    ∀ {l pre tail : List Char}, lastNlSplit l = some (pre, tail) → pre ≠ [] := by
  intro l
  induction l with
  | nil => intro pre tail h; simp [lastNlSplit] at h
  | cons c rest ih =>
    intro pre tail h
    by_cases hnl : c = '\n'
    · subst hnl
      rcases hrec : lastNlSplit rest with _ | ⟨p, t⟩ <;>
        simp only [lastNlSplit, hrec, if_true] at h <;> cases h <;> simp
    · by_cases hsp : isSpaceB c = true
      · rcases hrec : lastNlSplit rest with _ | ⟨p, t⟩
        · simp [lastNlSplit, hnl, hsp, hrec] at h
        · simp only [lastNlSplit, hnl, hsp, hrec, if_true, if_false] at h
          cases h
          simp
      · simp [lastNlSplit, hnl, hsp] at h

theorem lastNlSplit_tail_length_le {l pre tail : List Char}
    (h : lastNlSplit l = some (pre, tail)) : tail.length ≤ l.length := by
  have := lastNlSplit_eq_append h
  subst this
  simp

theorem subPOF_congr {p : List Char} (hp : p ≠ []) :
    ∀ n m l, l.length ≤ n → l.length ≤ m → subPOF p n l = subPOF p m l := by
  intro n
  induction n with
  | zero =>
    intro m l hn _
    have : l = [] := List.length_eq_zero.mp (Nat.le_zero.mp hn)
    subst this
    cases m <;> rfl
  | succ n ih =>
    intro m l hn hm
    cases l with
    | nil => cases m <;> rfl
    | cons c rest =>
      cases m with
      | zero => exact absurd hm (by simp)
      | succ m =>
        have hrest : rest.length ≤ n := by simpa using hn
        have hrest' : rest.length ≤ m := by simpa using hm
        by_cases hs : startsWithCI p (c :: rest) = true
        · rcases hd : dropThroughCI otherLit (List.drop p.length (c :: rest)) with _ | tail
          · simp only [subPOF, hs, if_true, hd]
            rw [ih m rest hrest hrest']
          · have htail : tail.length ≤ rest.length := by
              have h1 := dropThroughCI_length_le hd
              have h2 : (List.drop p.length (c :: rest)).length = rest.length + 1 - p.length := by
                simp
              have h3 : 1 ≤ p.length := by
                cases p with
                | nil => exact absurd rfl hp
                | cons _ _ => simp
              omega
            simp only [subPOF, hs, if_true, hd]
            exact ih m tail (Nat.le_trans htail hrest) (Nat.le_trans htail hrest')
        · simp only [subPOF, hs, if_false, Bool.false_eq_true]
          rw [ih m rest hrest hrest']

theorem subPO_fuel {p : List Char} (hp : p ≠ []) {n : Nat} {l : List Char}
    (h : l.length ≤ n) : subPOF p n l = subPO p l :=
  subPOF_congr hp n l.length l h (Nat.le_refl _)

theorem subPO_cons_neg {p : List Char} (hp : p ≠ []) {c : Char} {rest : List Char}
    (hs : startsWithCI p (c :: rest) = false) :
    subPO p (c :: rest) = c :: subPO p rest := by
  show subPOF p (rest.length + 1) (c :: rest) = _
  simp only [subPOF, hs, if_false, Bool.false_eq_true]
  rw [subPO_fuel hp (Nat.le_refl _)]

theorem subPO_cons_none {p : List Char} (hp : p ≠ []) {c : Char} {rest : List Char}
    (hs : startsWithCI p (c :: rest) = true)
    (hd : dropThroughCI otherLit (List.drop p.length (c :: rest)) = none) :
    subPO p (c :: rest) = c :: subPO p rest := by
  show subPOF p (rest.length + 1) (c :: rest) = _
  simp only [subPOF, hs, if_true, hd]
  rw [subPO_fuel hp (Nat.le_refl _)]

theorem subAdvF_congr :
    ∀ n m l, l.length ≤ n → l.length ≤ m → subAdvF n l = subAdvF m l := by
  intro n
  induction n with
  | zero =>
    intro m l hn _
    have : l = [] := List.length_eq_zero.mp (Nat.le_zero.mp hn)
    subst this
    cases m <;> rfl
  | succ n ih =>
    intro m l hn hm
    cases l with
    | nil => cases m <;> rfl
    | cons c rest =>
      cases m with
      | zero => exact absurd hm (by simp)
      | succ m =>
        have hrest : rest.length ≤ n := by simpa using hn
        have hrest' : rest.length ≤ m := by simpa using hm
        by_cases hs : startsWithCI advLit (c :: rest) = true
        · have htail :
              (List.dropWhile isSpaceB (List.drop advLit.length (c :: rest))).length ≤
                rest.length := by
            have h1 := (List.dropWhile_suffix (l := List.drop advLit.length (c :: rest))
              isSpaceB).length_le
            have h2 : (List.drop advLit.length (c :: rest)).length = rest.length + 1 - 13 := by
              simp [advLit]
            omega
          simp only [subAdvF, hs, if_true]
          exact ih m _ (Nat.le_trans htail hrest) (Nat.le_trans htail hrest')
        · simp only [subAdvF, hs, if_false, Bool.false_eq_true]
          rw [ih m rest hrest hrest']

theorem subAdv_fuel {n : Nat} {l : List Char} (h : l.length ≤ n) :
    subAdvF n l = subAdv l :=
  subAdvF_congr n l.length l h (Nat.le_refl _)

theorem subAdv_cons_neg {c : Char} {rest : List Char}
    (hs : startsWithCI advLit (c :: rest) = false) :
    subAdv (c :: rest) = c :: subAdv rest := by
  show subAdvF (rest.length + 1) (c :: rest) = _
  simp only [subAdvF, hs, if_false, Bool.false_eq_true]
  rw [subAdv_fuel (Nat.le_refl _)]

theorem collapseF_congr :
    ∀ n m l, l.length ≤ n → l.length ≤ m → collapseF n l = collapseF m l := by
  intro n
  induction n with
  | zero =>
    intro m l hn _
    have : l = [] := List.length_eq_zero.mp (Nat.le_zero.mp hn)
    subst this
    cases m <;> rfl
  | succ n ih =>
    intro m l hn hm
    cases l with
    | nil => cases m <;> rfl
    | cons c rest =>
      cases m with
      | zero => exact absurd hm (by simp)
      | succ m =>
        have hrest : rest.length ≤ n := by simpa using hn
        have hrest' : rest.length ≤ m := by simpa using hm
        by_cases hnl : c = '\n'
        · subst hnl
          rcases hsplit : lastNlSplit rest with _ | ⟨pre, tail⟩
          · simp only [collapseF, hsplit, if_true]
            rw [ih m rest hrest hrest']
          · have htail := lastNlSplit_tail_length_le hsplit
            simp only [collapseF, hsplit, if_true]
            rw [ih m tail (Nat.le_trans htail hrest) (Nat.le_trans htail hrest')]
        · simp only [collapseF, hnl, if_false]
          rw [ih m rest hrest hrest']

theorem collapse_fuel {n : Nat} {l : List Char} (h : l.length ≤ n) :
    collapseF n l = collapse l :=
  collapseF_congr n l.length l h (Nat.le_refl _)

theorem collapse_nil : collapse [] = [] := rfl

theorem collapse_cons_ne {c : Char} {rest : List Char} (hnl : c ≠ '\n') :
    collapse (c :: rest) = c :: collapse rest := by
  show collapseF (rest.length + 1) (c :: rest) = _
  simp only [collapseF, hnl, if_false]
  rw [collapse_fuel (Nat.le_refl _)]

theorem collapse_cons_none {rest : List Char} (h : lastNlSplit rest = none) :
    collapse ('\n' :: rest) = '\n' :: collapse rest := by
  show collapseF (rest.length + 1) ('\n' :: rest) = _
  simp only [collapseF, h, if_true]
  rw [collapse_fuel (Nat.le_refl _)]

theorem collapse_cons_some {rest pre tail : List Char}
    (h : lastNlSplit rest = some (pre, tail)) :
    collapse ('\n' :: rest) = '\n' :: '\n' :: collapse tail := by
  show collapseF (rest.length + 1) ('\n' :: rest) = _
  simp only [collapseF, h, if_true]
  rw [collapse_fuel (Nat.le_trans (lastNlSplit_tail_length_le h) (Nat.le_refl _))]

theorem lastNlSplit_eq_none_iff :
    ∀ l : List Char, lastNlSplit l = none ↔ '\n' ∉ l.takeWhile isSpaceB := by
  intro l
  induction l with
  | nil => simp [lastNlSplit]
  | cons c rest ih =>
    by_cases hnl : c = '\n'
    · subst hnl
      constructor
      · intro h
        rcases hrec : lastNlSplit rest with _ | ⟨p, t⟩ <;> simp [lastNlSplit, hrec] at h
      · intro h
        exact absurd (by simp [List.takeWhile, isSpaceB]) h
    · by_cases hsp : isSpaceB c = true
      · have : (c :: rest).takeWhile isSpaceB = c :: rest.takeWhile isSpaceB := by
          simp [List.takeWhile, hsp]
        rw [this]
        rcases hrec : lastNlSplit rest with _ | ⟨p, t⟩
        · simp only [lastNlSplit, hnl, hsp, hrec, if_false, if_true]
          simp only [true_iff, List.mem_cons, not_or]
          exact ⟨fun hc => hnl hc.symm, (ih.mp hrec)⟩
        · simp only [lastNlSplit, hnl, hsp, hrec, if_false, if_true]
          constructor
          · intro h
            exact absurd h (by simp)
          · intro h
            have hfree : '\n' ∉ rest.takeWhile isSpaceB := by
              intro hmem
              exact h (by simp [hmem])
            have : lastNlSplit rest = none := ih.mpr hfree
            rw [this] at hrec
            simp at hrec
      · have : (c :: rest).takeWhile isSpaceB = [] := by
          simp [List.takeWhile, hsp]
        rw [this]
        simp [lastNlSplit, hnl, hsp]

theorem lastNlSplit_some_tail_nlFree :
    ∀ {l pre tail : List Char}, lastNlSplit l = some (pre, tail) →
      '\n' ∉ tail.takeWhile isSpaceB := by
  intro l
  induction l with
  | nil => intro pre tail h; simp [lastNlSplit] at h
  | cons c rest ih =>
    intro pre tail h
    by_cases hnl : c = '\n'
    · subst hnl
      rcases hrec : lastNlSplit rest with _ | ⟨p, t⟩
      · simp only [lastNlSplit, hrec, if_true] at h
        cases h
        exact (lastNlSplit_eq_none_iff rest).mp hrec
      · simp only [lastNlSplit, hrec, if_true] at h
        cases h
        exact ih hrec
    · by_cases hsp : isSpaceB c = true
      · rcases hrec : lastNlSplit rest with _ | ⟨p, t⟩
        · simp [lastNlSplit, hnl, hsp, hrec] at h
        · simp only [lastNlSplit, hnl, hsp, hrec, if_false, if_true] at h
          cases h
          exact ih hrec
      · simp [lastNlSplit, hnl, hsp] at h

theorem head_ne_nl_of_nlFree {l : List Char} (h : '\n' ∉ l.takeWhile isSpaceB) :
    l.head? ≠ some '\n' := by
  cases l with
  | nil => simp
  | cons c rest =>
    intro hc
    simp only [List.head?_cons, Option.some.injEq] at hc
    subst hc
    exact h (by simp [List.takeWhile, isSpaceB])

theorem head_ne_nl_of_lastNlSplit_none {l : List Char} (h : lastNlSplit l = none) :
    l.head? ≠ some '\n' :=
  head_ne_nl_of_nlFree ((lastNlSplit_eq_none_iff l).mp h)

theorem collapse_head? : ∀ l : List Char, (collapse l).head? = l.head? := by
  intro l
  cases l with
  | nil => rfl
  | cons c rest =>
    by_cases hnl : c = '\n'
    · subst hnl
      rcases hsplit : lastNlSplit rest with _ | ⟨pre, tail⟩
      · rw [collapse_cons_none hsplit]
        simp
      · rw [collapse_cons_some hsplit]
        simp
    · rw [collapse_cons_ne hnl]
      simp

theorem lastNlSplit_collapse_none {l : List Char} (h : '\n' ∉ l.takeWhile isSpaceB) :
    lastNlSplit (collapse l) = none := by
  induction l with
  | nil => simp [collapse_nil, lastNlSplit]
  | cons c rest ih =>
    by_cases hnl : c = '\n'
    · subst hnl
      exact absurd (by simp [List.takeWhile, isSpaceB]) h
    · rw [collapse_cons_ne hnl]
      by_cases hsp : isSpaceB c = true
      · have hfree : '\n' ∉ rest.takeWhile isSpaceB := by
          intro hmem
          exact h (by simp [List.takeWhile, hsp, List.mem_cons, hmem])
        have := ih hfree
        simp [lastNlSplit, hnl, hsp, this]
      · simp [lastNlSplit, hnl, hsp]

theorem hasTripleNl_cons_ne {c : Char} {l : List Char} (hnl : c ≠ '\n') :
    hasTripleNl (c :: l) = hasTripleNl l := by
  cases l with
  | nil => rfl
  | cons b l' =>
    cases l' with
    | nil => rfl
    | cons d l'' => simp [hasTripleNl, hnl]

theorem hasTripleNl_nl_cons {l : List Char} (h : l.head? ≠ some '\n') :
    hasTripleNl ('\n' :: l) = hasTripleNl l := by
  cases l with
  | nil => rfl
  | cons b l' =>
    have hb : b ≠ '\n' := by
      intro hc
      exact h (by simp [hc])
    cases l' with
    | nil => rfl
    | cons d l'' => simp [hasTripleNl, hb]

theorem hasTripleNl_nl_nl_cons {l : List Char} (h : l.head? ≠ some '\n') :
    hasTripleNl ('\n' :: '\n' :: l) = hasTripleNl ('\n' :: l) := by
  cases l with
  | nil => rfl
  | cons b l' =>
    have hb : b ≠ '\n' := by
      intro hc
      exact h (by simp [hc])
    simp [hasTripleNl, hb]

theorem collapse_idem_aux :
    ∀ n l, l.length ≤ n → collapse (collapse l) = collapse l := by
  intro n
  induction n with
  | zero =>
    intro l hn
    have : l = [] := List.length_eq_zero.mp (Nat.le_zero.mp hn)
    subst this
    rfl
  | succ n ih =>
    intro l hn
    cases l with
    | nil => rfl
    | cons c rest =>
      have hrest : rest.length ≤ n := by simpa using hn
      by_cases hnl : c = '\n'
      · subst hnl
        rcases hsplit : lastNlSplit rest with _ | ⟨pre, tail⟩
        · rw [collapse_cons_none hsplit]
          have h2 : lastNlSplit (collapse rest) =
              none := lastNlSplit_collapse_none ((lastNlSplit_eq_none_iff rest).mp hsplit)
          rw [collapse_cons_none h2, ih rest hrest]
        · rw [collapse_cons_some hsplit]
          have htail : tail.length ≤ n :=
            Nat.le_trans (lastNlSplit_tail_length_le hsplit) hrest
          have h2 : lastNlSplit (collapse tail) =
              none := lastNlSplit_collapse_none (lastNlSplit_some_tail_nlFree hsplit)
          have h3 : lastNlSplit ('\n' :: collapse tail) = some (['\n'], collapse tail) := by
            simp [lastNlSplit, h2]
          rw [collapse_cons_some h3, ih tail htail]
      · rw [collapse_cons_ne hnl, collapse_cons_ne hnl, ih rest hrest]

/-- The blank-line collapsing substitution is idempotent. -/
theorem collapse_idem (l : List Char) : collapse (collapse l) = collapse l :=
  collapse_idem_aux l.length l (Nat.le_refl _)

theorem collapse_noTriple_aux :
    ∀ n l, l.length ≤ n → hasTripleNl (collapse l) = false := by
  intro n
  induction n with
  | zero =>
    intro l hn
    have : l = [] := List.length_eq_zero.mp (Nat.le_zero.mp hn)
    subst this
    rfl
  | succ n ih =>
    intro l hn
    cases l with
    | nil => rfl
    | cons c rest =>
      have hrest : rest.length ≤ n := by simpa using hn
      by_cases hnl : c = '\n'
      · subst hnl
        rcases hsplit : lastNlSplit rest with _ | ⟨pre, tail⟩
        · rw [collapse_cons_none hsplit]
          have hhd : (collapse rest).head? ≠ some '\n' := by
            rw [collapse_head?]
            exact head_ne_nl_of_lastNlSplit_none hsplit
          rw [hasTripleNl_nl_cons hhd]
          exact ih rest hrest
        · rw [collapse_cons_some hsplit]
          have htail : tail.length ≤ n :=
            Nat.le_trans (lastNlSplit_tail_length_le hsplit) hrest
          have hhd : (collapse tail).head? ≠ some '\n' := by
            rw [collapse_head?]
            exact head_ne_nl_of_nlFree (lastNlSplit_some_tail_nlFree hsplit)
          rw [hasTripleNl_nl_nl_cons hhd, hasTripleNl_nl_cons hhd]
          exact ih tail htail
      · rw [collapse_cons_ne hnl, hasTripleNl_cons_ne hnl]
        exact ih rest hrest

/-- The output of the blank-line collapsing substitution never contains
three consecutive newlines. -/
theorem collapse_noTriple (l : List Char) : hasTripleNl (collapse l) = false :=
  collapse_noTriple_aux l.length l (Nat.le_refl _)

theorem isSpaceB_nl : isSpaceB '\n' = true := rfl

theorem ne_nl_of_not_space {c : Char} (h : isSpaceB c = false) : c ≠ '\n' := by
  intro hc
  subst hc
  simp [isSpaceB] at h

theorem lastNlSplit_append_right {b : List Char} (hb : headNotSpace b = true) :
    ∀ x : List Char,
      lastNlSplit (x ++ b) = (lastNlSplit x).map (fun pt => (pt.1, pt.2 ++ b)) := by
  intro x
  induction x with
  | nil =>
    cases b with
    | nil => rfl
    | cons d b' =>
      have hd : isSpaceB d = false := by simpa [headNotSpace] using hb
      simp [lastNlSplit, ne_nl_of_not_space hd, hd]
  | cons c x' ih =>
    by_cases hnl : c = '\n'
    · subst hnl
      rcases hrec : lastNlSplit x' with _ | ⟨p, t⟩
      · have : lastNlSplit (x' ++ b) = none := by
          rw [ih, hrec]
          rfl
        simp [lastNlSplit, hrec, this]
      · have : lastNlSplit (x' ++ b) = some (p, t ++ b) := by
          rw [ih, hrec]
          rfl
        simp [lastNlSplit, hrec, this]
    · by_cases hsp : isSpaceB c = true
      · rcases hrec : lastNlSplit x' with _ | ⟨p, t⟩
        · have : lastNlSplit (x' ++ b) = none := by
            rw [ih, hrec]
            rfl
          simp [lastNlSplit, hnl, hsp, hrec, this]
        · have : lastNlSplit (x' ++ b) = some (p, t ++ b) := by
            rw [ih, hrec]
            rfl
          simp [lastNlSplit, hnl, hsp, hrec, this]
      · simp [lastNlSplit, hnl, hsp]

theorem collapse_append_right_aux {b : List Char} (hb : headNotSpace b = true) :
    ∀ n a, a.length ≤ n → collapse (a ++ b) = collapse a ++ collapse b := by
  intro n
  induction n with
  | zero =>
    intro a ha
    have : a = [] := List.length_eq_zero.mp (Nat.le_zero.mp ha)
    subst this
    simp [collapse_nil]
  | succ n ih =>
    intro a ha
    cases a with
    | nil => simp [collapse_nil]
    | cons c a' =>
      have ha' : a'.length ≤ n := by simpa using ha
      by_cases hnl : c = '\n'
      · subst hnl
        rcases hsplit : lastNlSplit a' with _ | ⟨p, t⟩
        · have h2 : lastNlSplit (a' ++ b) = none := by
            rw [lastNlSplit_append_right hb, hsplit]
            rfl
          rw [List.cons_append, collapse_cons_none h2, collapse_cons_none hsplit,
            ih a' ha']
          rfl
        · have h2 : lastNlSplit (a' ++ b) = some (p, t ++ b) := by
            rw [lastNlSplit_append_right hb, hsplit]
            rfl
          have ht : t.length ≤ n :=
            Nat.le_trans (lastNlSplit_tail_length_le hsplit) ha'
          rw [List.cons_append, collapse_cons_some h2, collapse_cons_some hsplit,
            ih t ht]
          rfl
      · rw [List.cons_append, collapse_cons_ne hnl, collapse_cons_ne hnl, ih a' ha']
        rfl

theorem collapse_append_right {a b : List Char} (hb : headNotSpace b = true) :
    collapse (a ++ b) = collapse a ++ collapse b :=
  collapse_append_right_aux hb a.length a (Nat.le_refl _)

theorem lastNlSplit_append_left {b : List Char} :
    ∀ x : List Char, (∃ e ∈ x, isSpaceB e = false) →
      lastNlSplit (x ++ b) = (lastNlSplit x).map (fun pt => (pt.1, pt.2 ++ b)) := by
  intro x
  induction x with
  | nil =>
    intro h
    simp at h
  | cons c x' ih =>
    intro h
    by_cases hsp : isSpaceB c = true
    · have hx' : ∃ e ∈ x', isSpaceB e = false := by
        rcases h with ⟨e, he, hes⟩
        rcases List.mem_cons.mp he with rfl | hmem
        · rw [hsp] at hes
          cases hes
        · exact ⟨e, hmem, hes⟩
      by_cases hnl : c = '\n'
      · subst hnl
        rcases hrec : lastNlSplit x' with _ | ⟨p, t⟩
        · have : lastNlSplit (x' ++ b) = none := by
            rw [ih hx', hrec]
            rfl
          simp [lastNlSplit, hrec, this]
        · have : lastNlSplit (x' ++ b) = some (p, t ++ b) := by
            rw [ih hx', hrec]
            rfl
          simp [lastNlSplit, hrec, this]
      · rcases hrec : lastNlSplit x' with _ | ⟨p, t⟩
        · have : lastNlSplit (x' ++ b) = none := by
            rw [ih hx', hrec]
            rfl
          simp [lastNlSplit, hnl, hsp, hrec, this]
        · have : lastNlSplit (x' ++ b) = some (p, t ++ b) := by
            rw [ih hx', hrec]
            rfl
          simp [lastNlSplit, hnl, hsp, hrec, this]
    · have hsp' : isSpaceB c = false := by simpa using hsp
      simp [lastNlSplit, ne_nl_of_not_space hsp', hsp']

theorem lastNlSplit_pre_space :
    ∀ {l pre tail : List Char}, lastNlSplit l = some (pre, tail) →
      ∀ e ∈ pre, isSpaceB e = true := by
  intro l
  induction l with
  | nil => intro pre tail h; simp [lastNlSplit] at h
  | cons c rest ih =>
    intro pre tail h
    by_cases hnl : c = '\n'
    · subst hnl
      rcases hrec : lastNlSplit rest with _ | ⟨p, t⟩
      · simp only [lastNlSplit, hrec, if_true] at h
        cases h
        intro e he
        rcases List.mem_singleton.mp he with rfl
        rfl
      · simp only [lastNlSplit, hrec, if_true] at h
        cases h
        intro e he
        rcases List.mem_cons.mp he with rfl | hmem
        · rfl
        · exact ih hrec e hmem
    · by_cases hsp : isSpaceB c = true
      · rcases hrec : lastNlSplit rest with _ | ⟨p, t⟩
        · simp [lastNlSplit, hnl, hsp, hrec] at h
        · simp only [lastNlSplit, hnl, hsp, hrec, if_false, if_true] at h
          cases h
          intro e he
          rcases List.mem_cons.mp he with rfl | hmem
          · exact hsp
          · exact ih hrec e hmem
      · simp [lastNlSplit, hnl, hsp] at h

theorem collapse_append_left_aux :
    ∀ n (a b : List Char) (d : Char), a.length ≤ n → a.getLast? = some d →
      isSpaceB d = false → collapse (a ++ b) = collapse a ++ collapse b := by
  intro n
  induction n with
  | zero =>
    intro a b d ha hd _
    have : a = [] := List.length_eq_zero.mp (Nat.le_zero.mp ha)
    subst this
    simp at hd
  | succ n ih =>
    intro a b d ha hd hds
    cases a with
    | nil => simp at hd
    | cons c a' =>
      have ha' : a'.length ≤ n := by simpa using ha
      cases a' with
      | nil =>
        have hc : c = d := by simpa using hd
        subst hc
        rw [List.singleton_append, collapse_cons_ne (ne_nl_of_not_space hds)]
        have : collapse [c] = [c] := by
          rw [collapse_cons_ne (ne_nl_of_not_space hds), collapse_nil]
        rw [this]
        rfl
      | cons e a'' =>
        have hd' : (e :: a'').getLast? = some d := by
          rw [← List.getLast?_cons_cons (a := c)]
          exact hd
        have hmem : ∃ x ∈ e :: a'', isSpaceB x = false :=
          ⟨d, List.mem_of_mem_getLast? (by simpa using hd'), hds⟩
        by_cases hnl : c = '\n'
        · subst hnl
          rcases hsplit : lastNlSplit (e :: a'') with _ | ⟨p, t⟩
          · have h2 : lastNlSplit ((e :: a'') ++ b) = none := by
              rw [lastNlSplit_append_left (e :: a'') hmem, hsplit]
              rfl
            rw [List.cons_append, collapse_cons_none h2, collapse_cons_none hsplit,
              ih (e :: a'') b d ha' hd' hds]
            rfl
          · have h2 : lastNlSplit ((e :: a'') ++ b) = some (p, t ++ b) := by
              rw [lastNlSplit_append_left (e :: a'') hmem, hsplit]
              rfl
            have hdecomp := lastNlSplit_eq_append hsplit
            have ht_ne : t ≠ [] := by
              intro hte
              subst hte
              have : isSpaceB d = true :=
                lastNlSplit_pre_space hsplit d
                  (by
                    have := List.mem_of_mem_getLast? (l := e :: a'') (by simpa using hd')
                    rw [hdecomp] at this
                    simpa using this)
              rw [this] at hds
              cases hds
            have hdt : t.getLast? = some d := by
              rw [hdecomp, List.getLast?_append_of_ne_nil p ht_ne] at hd'
              exact hd'
            have ht : t.length ≤ n :=
              Nat.le_trans (lastNlSplit_tail_length_le hsplit) ha'
            rw [List.cons_append, collapse_cons_some h2, collapse_cons_some hsplit,
              ih t b d ht hdt hds]
            rfl
        · rw [List.cons_append, collapse_cons_ne hnl, collapse_cons_ne hnl,
            ih (e :: a'') b d ha' hd' hds]
          rfl

theorem collapse_append_left {a b : List Char} {d : Char} (hd : a.getLast? = some d)
    (hds : isSpaceB d = false) : collapse (a ++ b) = collapse a ++ collapse b :=
  collapse_append_left_aux a.length a b d (Nat.le_refl _) hd hds

theorem collapse_all_space_aux :
    ∀ n l, l.length ≤ n → (∀ e ∈ l, isSpaceB e = true) →
      ∀ e ∈ collapse l, isSpaceB e = true := by
  intro n
  induction n with
  | zero =>
    intro l hn _
    have : l = [] := List.length_eq_zero.mp (Nat.le_zero.mp hn)
    subst this
    simp [collapse_nil]
  | succ n ih =>
    intro l hn hall
    cases l with
    | nil => simp [collapse_nil]
    | cons c rest =>
      have hrest : rest.length ≤ n := by simpa using hn
      have hallrest : ∀ e ∈ rest, isSpaceB e = true := fun e he => hall e (by simp [he])
      by_cases hnl : c = '\n'
      · subst hnl
        rcases hsplit : lastNlSplit rest with _ | ⟨p, t⟩
        · rw [collapse_cons_none hsplit]
          intro e he
          rcases List.mem_cons.mp he with rfl | hmem
          · rfl
          · exact ih rest hrest hallrest e hmem
        · rw [collapse_cons_some hsplit]
          have ht : t.length ≤ n :=
            Nat.le_trans (lastNlSplit_tail_length_le hsplit) hrest
          have hallt : ∀ e ∈ t, isSpaceB e = true := by
            intro e he
            apply hallrest
            rw [lastNlSplit_eq_append hsplit]
            simp [he]
          intro e he
          rcases List.mem_cons.mp he with rfl | hmem
          · rfl
          · rcases List.mem_cons.mp hmem with rfl | hmem'
            · rfl
            · exact ih t ht hallt e hmem'
      · rw [collapse_cons_ne hnl]
        intro e he
        rcases List.mem_cons.mp he with rfl | hmem
        · exact hall e (by simp)
        · exact ih rest hrest hallrest e hmem

theorem collapse_all_space {l : List Char} (h : ∀ e ∈ l, isSpaceB e = true) :
    ∀ e ∈ collapse l, isSpaceB e = true :=
  collapse_all_space_aux l.length l (Nat.le_refl _) h

theorem collapse_getLast?_aux :
    ∀ n (l : List Char) (d : Char), l.length ≤ n → l.getLast? = some d →
      isSpaceB d = false → (collapse l).getLast? = some d := by
  intro n
  induction n with
  | zero =>
    intro l d hn hd _
    have : l = [] := List.length_eq_zero.mp (Nat.le_zero.mp hn)
    subst this
    simp at hd
  | succ n ih =>
    intro l d hn hd hds
    cases l with
    | nil => simp at hd
    | cons c rest =>
      have hrest : rest.length ≤ n := by simpa using hn
      cases rest with
      | nil =>
        have hc : c = d := by simpa using hd
        subst hc
        rw [collapse_cons_ne (ne_nl_of_not_space hds), collapse_nil]
        simp
      | cons e rest' =>
        have hd' : (e :: rest').getLast? = some d := by
          rw [← List.getLast?_cons_cons (a := c)]
          exact hd
        have hcoll_ne : collapse (e :: rest') ≠ [] := by
          intro hemp
          have := collapse_head? (e :: rest')
          rw [hemp] at this
          simp at this
        by_cases hnl : c = '\n'
        · subst hnl
          rcases hsplit : lastNlSplit (e :: rest') with _ | ⟨p, t⟩
          · rw [collapse_cons_none hsplit]
            rw [← List.singleton_append, List.getLast?_append_of_ne_nil _ hcoll_ne]
            exact ih (e :: rest') d hrest hd' hds
          · rw [collapse_cons_some hsplit]
            have hdecomp := lastNlSplit_eq_append hsplit
            have ht_ne : t ≠ [] := by
              intro hte
              subst hte
              have : isSpaceB d = true :=
                lastNlSplit_pre_space hsplit d
                  (by
                    have := List.mem_of_mem_getLast? (l := e :: rest') (by simpa using hd')
                    rw [hdecomp] at this
                    simpa using this)
              rw [this] at hds
              cases hds
            have hdt : t.getLast? = some d := by
              rw [hdecomp, List.getLast?_append_of_ne_nil p ht_ne] at hd'
              exact hd'
            have ht : t.length ≤ n :=
              Nat.le_trans (lastNlSplit_tail_length_le hsplit) hrest
            have hct : (collapse t).getLast? = some d := ih t d ht hdt hds
            have hct_ne : collapse t ≠ [] := by
              intro hemp
              rw [hemp] at hct
              simp at hct
            rw [show ('\n' :: '\n' :: collapse t) = ['\n', '\n'] ++ collapse t from rfl,
              List.getLast?_append_of_ne_nil _ hct_ne]
            exact hct
        · rw [collapse_cons_ne hnl]
          rw [← List.singleton_append, List.getLast?_append_of_ne_nil _ hcoll_ne]
          exact ih (e :: rest') d hrest hd' hds

theorem collapse_getLast? {l : List Char} {d : Char} (hd : l.getLast? = some d)
    (hds : isSpaceB d = false) : (collapse l).getLast? = some d :=
  collapse_getLast?_aux l.length l d (Nat.le_refl _) hd hds

theorem dropWhile_append_all {p : Char → Bool} :
    ∀ {x t : List Char}, (∀ e ∈ x, p e = true) →
      (x ++ t).dropWhile p = t.dropWhile p := by
  intro x
  induction x with
  | nil => intro t _; rfl
  | cons c x' ih =>
    intro t h
    have hc : p c = true := h c (by simp)
    rw [List.cons_append, List.dropWhile_cons_of_pos hc]
    exact ih (fun e he => h e (by simp [he]))

theorem dropWhile_of_head_not {p : Char → Bool} {t : List Char} {d : Char}
    (hh : t.head? = some d) (hd : p d = false) : t.dropWhile p = t := by
  cases t with
  | nil => rfl
  | cons c t' =>
    have : c = d := by simpa using hh
    subst this
    rw [List.dropWhile_cons_of_neg (by simp [hd])]

theorem pyStrip_all_space {l : List Char} (h : ∀ e ∈ l, isSpaceB e = true) :
    pyStrip l = [] := by
  unfold pyStrip
  rw [List.dropWhile_eq_nil_iff.mpr h]
  rfl

theorem pyStrip_sandwich {x y z : List Char} {d d' : Char}
    (hx : ∀ e ∈ x, isSpaceB e = true) (hz : ∀ e ∈ z, isSpaceB e = true)
    (hyh : y.head? = some d) (hds : isSpaceB d = false)
    (hyl : y.getLast? = some d') (hds' : isSpaceB d' = false) :
    pyStrip (x ++ (y ++ z)) = y := by
  have hy_ne : y ≠ [] := by
    intro he
    rw [he] at hyh
    simp at hyh
  unfold pyStrip
  rw [dropWhile_append_all hx]
  have h1 : (y ++ z).dropWhile isSpaceB = y ++ z :=
    dropWhile_of_head_not (by rw [List.head?_append_of_ne_nil y hy_ne]; exact hyh) hds
  rw [h1, List.reverse_append]
  have h2 : (z.reverse ++ y.reverse).dropWhile isSpaceB = y.reverse.dropWhile isSpaceB :=
    dropWhile_append_all (fun e he => hz e (List.mem_reverse.mp he))
  rw [h2]
  have h3 : y.reverse.dropWhile isSpaceB = y.reverse :=
    dropWhile_of_head_not (by rw [List.head?_reverse]; exact hyl) hds'
  rw [h3, List.reverse_reverse]

/-- Collapsing blank lines and trimming whitespace commute: the interior
whitespace runs are unaffected by trimming, and the boundary runs are
removed whole by trimming whether or not they were collapsed first. -/
theorem collapse_pyStrip_comm (u : List Char) :
    collapse (pyStrip u) = pyStrip (collapse u) := by
  by_cases hall : ∀ e ∈ u, isSpaceB e = true
  · rw [pyStrip_all_space hall, collapse_nil,
      pyStrip_all_space (collapse_all_space hall)]
  · push_neg at hall
    rcases hall with ⟨w, hw, hws⟩
    have hws' : isSpaceB w = false := by simpa using hws
    set L := u.takeWhile isSpaceB with hL
    set v := u.dropWhile isSpaceB with hv
    have hu : L ++ v = u := List.takeWhile_append_dropWhile isSpaceB u
    have hv_ne : v ≠ [] := by
      intro he
      have : ∀ e ∈ u, isSpaceB e = true := List.dropWhile_eq_nil_iff.mp he
      rw [this w hw] at hws'
      cases hws'
    obtain ⟨d, hd⟩ : ∃ d, v.head? = some d := by
      cases hve : v with
      | nil => exact absurd hve hv_ne
      | cons a t => exact ⟨a, by simp⟩
    have hd_ns : isSpaceB d = false := by
      cases hve : v with
      | nil => exact absurd hve hv_ne
      | cons a t =>
        have ha : a = d := by
          rw [hve] at hd
          simpa using hd
        subst ha
        have := List.head?_dropWhile_not isSpaceB u
        rw [← hv, hve] at this
        simpa using this
    set m := (v.reverse.dropWhile isSpaceB).reverse with hm
    set R := (v.reverse.takeWhile isSpaceB).reverse with hR
    have hvm : m ++ R = v := by
      have h1 : v.reverse.takeWhile isSpaceB ++ v.reverse.dropWhile isSpaceB =
          v.reverse := List.takeWhile_append_dropWhile isSpaceB v.reverse
      calc m ++ R
          = (v.reverse.takeWhile isSpaceB ++ v.reverse.dropWhile isSpaceB).reverse := by
            rw [List.reverse_append]
        _ = v := by rw [h1, List.reverse_reverse]
    have hm_ne : m ≠ [] := by
      intro he
      have h0 : v.reverse.dropWhile isSpaceB = [] := by
        have := congrArg List.reverse he
        simpa [hm] using this
      have : ∀ e ∈ v.reverse, isSpaceB e = true := List.dropWhile_eq_nil_iff.mp h0
      have hdv : d ∈ v := by
        cases hve : v with
        | nil => exact absurd hve hv_ne
        | cons a t =>
          rw [hve] at hd
          simp at hd
          simp [hve, hd]
      rw [this d (List.mem_reverse.mpr hdv)] at hd_ns
      cases hd_ns
    obtain ⟨d', hd'⟩ : ∃ d', m.getLast? = some d' := by
      cases hme : m with
      | nil => exact absurd hme hm_ne
      | cons a t => exact ⟨(a :: t).getLast (by simp), List.getLast?_eq_getLast_of_ne_nil _⟩
    have hd'_ns : isSpaceB d' = false := by
      have h1 : m.getLast? = (v.reverse.dropWhile isSpaceB).head? := by
        rw [hm, List.getLast?_reverse]
      rw [h1] at hd'
      have := List.head?_dropWhile_not isSpaceB v.reverse
      rw [hd'] at this
      simpa using this
    have hmh : m.head? = some d := by
      have : v.head? = m.head? := by
        rw [← hvm, List.head?_append_of_ne_nil m hm_ne]
      rw [← this]
      exact hd
    have hL_space : ∀ e ∈ L, isSpaceB e = true := fun e he =>
      List.mem_takeWhile_imp he
    have hR_space : ∀ e ∈ R, isSpaceB e = true := fun e he =>
      List.mem_takeWhile_imp (List.mem_reverse.mp he)
    have hstrip : pyStrip u = m := by
      unfold pyStrip
      rw [← hv, hm]
    have hcu : collapse u = collapse L ++ (collapse m ++ collapse R) := by
      have hb : headNotSpace (m ++ R) = true := by
        cases hme : m with
        | nil => exact absurd hme hm_ne
        | cons a t =>
          have ha : a = d := by
            rw [hme] at hmh
            simpa using hmh
          subst ha
          simp [headNotSpace, hd_ns]
      calc collapse u
          = collapse (L ++ (m ++ R)) := by rw [hvm, hu]
        _ = collapse L ++ collapse (m ++ R) := collapse_append_right hb
        _ = collapse L ++ (collapse m ++ collapse R) := by
            rw [collapse_append_left hd' hd'_ns]
    rw [hstrip, hcu]
    rw [pyStrip_sandwich (collapse_all_space hL_space) (collapse_all_space hR_space)
      (by rw [collapse_head?]; exact hmh) hd_ns
      (collapse_getLast? hd' hd'_ns) hd'_ns]

theorem subPO_eq_self_of_no_match {p : List Char} (hp : p ≠ []) :
    ∀ l, hasPOMatch p l = false → subPO p l = l := by
  intro l
  induction l with
  | nil => intro _; rfl
  | cons c rest ih =>
    intro h
    simp only [hasPOMatch, Bool.or_eq_false_iff, Bool.and_eq_false_iff] at h
    rcases h with ⟨h1, h2⟩
    rcases h1 with hs | hd
    · rw [subPO_cons_neg hp (by simpa using hs), ih h2]
    · by_cases hs : startsWithCI p (c :: rest) = true
      · have hnone : dropThroughCI otherLit (List.drop p.length (c :: rest)) = none := by
          rcases hopt : dropThroughCI otherLit (List.drop p.length (c :: rest)) with _ | t
          · rfl
          · rw [hopt] at hd
            simp at hd
        rw [subPO_cons_none hp hs hnone, ih h2]
      · rw [subPO_cons_neg hp (by simpa using hs), ih h2]

theorem subAdv_eq_self_of_no_match :
    ∀ l, hasAdvMatch l = false → subAdv l = l := by
  intro l
  induction l with
  | nil => intro _; rfl
  | cons c rest ih =>
    intro h
    simp only [hasAdvMatch, Bool.or_eq_false_iff] at h
    rw [subAdv_cons_neg (by simpa using h.1), ih h.2]

/-- C4: the text post-processing of body and summary equals, extensionally,
the pipeline that removes the fixed case-insensitive, line-crossing ad
patterns first, then collapses blank-line runs, then trims leading and
trailing whitespace as the final step.  (The source trims before
collapsing, but trimming commutes with the collapsing substitution, so
the claimed order computes the same function.) -/
theorem C4_postprocess_order (l : List Char) : cleanText l = cleanTextSpecOrder l :=
  collapse_pyStrip_comm (removeAds l)

/-- C6: the blank-line collapsing step is idempotent, and its output never
contains three (or more) consecutive newline characters, hence never three
or more consecutive blank lines. -/
theorem C6_collapse_idem_and_bounded :
    (∀ l : List Char, collapse (collapse l) = collapse l) ∧
      ∀ l : List Char, hasTripleNl (collapse l) = false :=
  ⟨collapse_idem, collapse_noTriple⟩

/-- C5 counterexample: the full ordered sequence of pattern removals
applied twice differs from applying it once on `c5Input` (one pass leaves
`Advertisement`, the second deletes it). -/
theorem C5_counterexample :
    removeAds c5Input = "Advertisement".data ∧
      removeAds (removeAds c5Input) = [] ∧
      removeAds (removeAds c5Input) ≠ removeAds c5Input := by
  refine ⟨by decide, by decide, ?_⟩
  decide

/-- C5 (amended): pattern removal applied twice equals one application
whenever its first output matches none of the three ad patterns any more;
removal can splice a new occurrence together (see the counterexample), so
unconditional idempotence fails. -/
theorem C5_amended_idempotent_when_free (s : List Char)
    (h : adPatternFree (removeAds s) = true) :
    removeAds (removeAds s) = removeAds s := by
  simp only [adPatternFree, Bool.and_eq_true, Bool.not_eq_true'] at h
  rcases h with ⟨⟨h1, h2⟩, h3⟩
  calc removeAds (removeAds s)
      = subAdv (subPO videoPlayerLit (subPO howRelevantLit (removeAds s))) := rfl
    _ = removeAds s := by
        rw [subPO_eq_self_of_no_match (by decide) _ h1,
          subPO_eq_self_of_no_match (by decide) _ h2,
          subAdv_eq_self_of_no_match _ h3]

/-- C5 amended-claim witness: a concrete input whose cleaned form is
pattern-free, on which the amended statement applies. -/
theorem C5_amended_witness :
    adPatternFree (removeAds c5Witness) = true ∧
      removeAds (removeAds c5Witness) = removeAds c5Witness :=
  ⟨by decide, C5_amended_idempotent_when_free c5Witness (by decide)⟩

theorem processEntries_length_le (env : Env) (srcName keyword : List Char) (m : Int) :
    ∀ (es : List Entry) (acc : List Record),
      (processEntries env srcName keyword m es acc).length ≤ max acc.length m.toNat := by
  intro es
  induction es with
  | nil => intro acc; exact Nat.le_max_left _ _
  | cons e es ih =>
    intro acc
    by_cases hcap : m ≤ (acc.length : Int)
    · rw [processEntries, if_pos hcap]
      exact Nat.le_max_left _ _
    · rw [processEntries, if_neg hcap]
      rcases hrec : entryRecord env srcName keyword e with _ | r
      · exact ih acc
      · have hlt : (acc.length : Int) < m := lt_of_not_le hcap
        have hlen : (acc ++ [r]).length ≤ m.toNat := by
          have : (acc.length : Int) + 1 ≤ m := hlt
          have hm : (0 : Int) < m := by omega
          have := Int.toNat_le_toNat this
          simp only [List.length_append, List.length_singleton]
          omega
        calc (processEntries env srcName keyword m es (acc ++ [r])).length
            ≤ max (acc ++ [r]).length m.toNat := ih (acc ++ [r])
          _ ≤ m.toNat := by omega
          _ ≤ max acc.length m.toNat := Nat.le_max_right _ _

theorem processEntries_eq_append (env : Env) (srcName keyword : List Char) (m : Int) :
    ∀ (es : List Entry) (acc : List Record),
      ∃ q, processEntries env srcName keyword m es acc = acc ++ q ∧
        List.Sublist q (es.filterMap (entryRecord env srcName keyword)) := by
  intro es
  induction es with
  | nil =>
    intro acc
    exact ⟨[], by simp [processEntries], List.nil_sublist _⟩
  | cons e es ih =>
    intro acc
    by_cases hcap : m ≤ (acc.length : Int)
    · exact ⟨[], by simp [processEntries, hcap], List.nil_sublist _⟩
    · rcases hrec : entryRecord env srcName keyword e with _ | r
      · rcases ih acc with ⟨q, heq, hsub⟩
        refine ⟨q, ?_, ?_⟩
        · rw [processEntries, if_neg hcap, hrec, heq]
        · rw [List.filterMap_cons_none hrec]
          exact hsub
      · rcases ih (acc ++ [r]) with ⟨q, heq, hsub⟩
        refine ⟨r :: q, ?_, ?_⟩
        · rw [processEntries, if_neg hcap, hrec]
          show processEntries env srcName keyword m es (acc ++ [r]) = acc ++ r :: q
          rw [heq, List.append_assoc]
          rfl
        · rw [List.filterMap_cons_some hrec]
          exact List.Sublist.cons₂ r hsub

theorem processFeeds_capped {env : Env} {kwLower srcName keyword : List Char} {m : Int}
    {acc : List Record} (h : m ≤ (acc.length : Int)) :
    ∀ fs, processFeeds env kwLower srcName keyword m fs acc = .ok acc := by
  intro fs
  cases fs with
  | nil => rfl
  | cons f fs => rcases f with ⟨fn, fu⟩; rw [processFeeds, if_pos h]

theorem processFeeds_cons_err {env : Env} {kwLower srcName keyword : List Char}
    {m : Int} {fn fu : List Char} {fs : List (List Char × List Char)}
    {acc : List Record} {e : Unit} (hcap : ¬m ≤ (acc.length : Int))
    (hfetch : env.fetchFeed fu = .error e) :
    processFeeds env kwLower srcName keyword m ((fn, fu) :: fs) acc = .error e := by
  rw [processFeeds, if_neg hcap, hfetch]

theorem processFeeds_cons_ok {env : Env} {kwLower srcName keyword : List Char}
    {m : Int} {fn fu : List Char} {fs : List (List Char × List Char)}
    {acc : List Record} {entries : List Entry} (hcap : ¬m ≤ (acc.length : Int))
    (hfetch : env.fetchFeed fu = .ok entries) :
    processFeeds env kwLower srcName keyword m ((fn, fu) :: fs) acc =
      if entries = [] then processFeeds env kwLower srcName keyword m fs acc
      else
        processFeeds env kwLower srcName keyword m fs
          (processEntries env srcName keyword m
            ((matchingEntries kwLower entries).take (m - (acc.length : Int)).toNat)
            acc) := by
  rw [processFeeds, if_neg hcap, hfetch]

theorem processFeeds_append (env : Env) (kwLower srcName keyword : List Char) (m : Int) :
    ∀ (xs ys : List (List Char × List Char)) (acc : List Record),
      processFeeds env kwLower srcName keyword m (xs ++ ys) acc =
        (processFeeds env kwLower srcName keyword m xs acc).bind
          (processFeeds env kwLower srcName keyword m ys) := by
  intro xs
  induction xs with
  | nil => intro ys acc; rfl
  | cons f xs ih =>
    intro ys acc
    rcases f with ⟨fn, fu⟩
    by_cases hcap : m ≤ (acc.length : Int)
    · rw [List.cons_append, processFeeds_capped hcap, processFeeds_capped hcap]
      show Except.ok acc = processFeeds env kwLower srcName keyword m ys acc
      rw [processFeeds_capped hcap]
    · rcases hfetch : env.fetchFeed fu with e | entries
      · rw [List.cons_append, processFeeds_cons_err hcap hfetch,
          processFeeds_cons_err hcap hfetch]
        rfl
      · rw [List.cons_append, processFeeds_cons_ok hcap hfetch,
          processFeeds_cons_ok hcap hfetch]
        by_cases hemp : entries = []
        · rw [if_pos hemp, if_pos hemp]
          exact ih ys acc
        · rw [if_neg hemp, if_neg hemp]
          exact ih ys _

theorem processFeeds_length_le (env : Env) (kwLower srcName keyword : List Char)
    (m : Int) :
    ∀ (fs : List (List Char × List Char)) (acc r : List Record),
      processFeeds env kwLower srcName keyword m fs acc = .ok r →
        r.length ≤ max acc.length m.toNat := by
  intro fs
  induction fs with
  | nil =>
    intro acc r h
    cases h
    exact Nat.le_max_left _ _
  | cons f fs ih =>
    intro acc r h
    rcases f with ⟨fn, fu⟩
    by_cases hcap : m ≤ (acc.length : Int)
    · rw [processFeeds_capped hcap] at h
      cases h
      exact Nat.le_max_left _ _
    · rcases hfetch : env.fetchFeed fu with e | entries
      · rw [processFeeds_cons_err hcap hfetch] at h
        cases h
      · rw [processFeeds_cons_ok hcap hfetch] at h
        by_cases hemp : entries = []
        · rw [if_pos hemp] at h
          exact ih acc r h
        · rw [if_neg hemp] at h
          have h1 := ih _ r h
          have h2 := processEntries_length_le env srcName keyword m
            ((matchingEntries kwLower entries).take (m - (acc.length : Int)).toNat) acc
          omega

theorem processFeeds_nonpos {env : Env} {kwLower srcName keyword : List Char} {m : Int}
    (h : m ≤ 0) (fs : List (List Char × List Char)) :
    processFeeds env kwLower srcName keyword m fs [] = .ok [] :=
  processFeeds_capped (by simpa using h) fs

theorem processFeeds_sublist_candidates (env : Env)
    (kwLower srcName keyword : List Char) (m : Int) :
    ∀ (fs : List (List Char × List Char)) (acc r : List Record),
      processFeeds env kwLower srcName keyword m fs acc = .ok r →
        ∃ q, r = acc ++ q ∧
          List.Sublist q (sourceCandidates env kwLower srcName keyword fs) := by
  intro fs
  induction fs with
  | nil =>
    intro acc r h
    cases h
    exact ⟨[], by simp, List.nil_sublist _⟩
  | cons f fs ih =>
    intro acc r h
    rcases f with ⟨fn, fu⟩
    have hcand : sourceCandidates env kwLower srcName keyword ((fn, fu) :: fs) =
        (feedMatched env kwLower (fn, fu)).filterMap (entryRecord env srcName keyword)
          ++ sourceCandidates env kwLower srcName keyword fs := by
      unfold sourceCandidates
      rw [List.map_cons, List.flatten_cons, List.filterMap_append]
    by_cases hcap : m ≤ (acc.length : Int)
    · rw [processFeeds_capped hcap] at h
      cases h
      exact ⟨[], by simp, List.nil_sublist _⟩
    · rcases hfetch : env.fetchFeed fu with e | entries
      · rw [processFeeds_cons_err hcap hfetch] at h
        cases h
      · rw [processFeeds_cons_ok hcap hfetch] at h
        by_cases hemp : entries = []
        · rw [if_pos hemp] at h
          rcases ih acc r h with ⟨q, heq, hsub⟩
          refine ⟨q, heq, ?_⟩
          rw [hcand]
          exact hsub.trans (List.sublist_append_right _ _)
        · rw [if_neg hemp] at h
          rcases processEntries_eq_append env srcName keyword m
              ((matchingEntries kwLower entries).take (m - (acc.length : Int)).toNat) acc
            with ⟨q1, heq1, hsub1⟩
          rw [heq1] at h
          rcases ih _ r h with ⟨q2, heq2, hsub2⟩
          refine ⟨q1 ++ q2, by rw [heq2, List.append_assoc], ?_⟩
          rw [hcand]
          have hfm : feedMatched env kwLower (fn, fu) = matchingEntries kwLower entries := by
            unfold feedMatched
            rw [hfetch]
          have hsub1' : List.Sublist q1
              ((feedMatched env kwLower (fn, fu)).filterMap
                (entryRecord env srcName keyword)) := by
            rw [hfm]
            exact hsub1.trans
              (List.Sublist.filterMap _
                (List.take_sublist _ (matchingEntries kwLower entries)))
          exact List.Sublist.append hsub1' hsub2

theorem foldl_append_eq_flatten {α : Type} (g : α → List Record) :
    ∀ (l : List α) (init : List Record),
      l.foldl (fun all src => all ++ g src) init = init ++ (l.map g).flatten := by
  intro l
  induction l with
  | nil => intro init; simp
  | cons x l ih =>
    intro init
    rw [List.foldl_cons, ih, List.map_cons, List.flatten_cons, List.append_assoc]

theorem search_eq_flatten (env : Env) (keyword : List Char) (m : Int) :
    search_rss_feeds env keyword m =
      (NEWS_SOURCES.map (sourceRecords env keyword m)).flatten := by
  unfold search_rss_feeds
  have hfun :
      (fun (all : List Record) (src : List Char × List (List Char × List Char)) =>
          match processFeeds env (keyword.map lowerChar) src.1 keyword m src.2 [] with
          | .ok arts => all ++ arts
          | .error _ => all) =
        fun all src => all ++ sourceRecords env keyword m src := by
    funext all src
    unfold sourceRecords
    rcases processFeeds env (keyword.map lowerChar) src.1 keyword m src.2 [] with e | a
    · simp
    · rfl
  rw [hfun, foldl_append_eq_flatten]
  rfl

theorem entryRecord_text_gt {env : Env} {srcName keyword : List Char} {e : Entry}
    {r : Record} (h : entryRecord env srcName keyword e = some r) :
    200 < r.text.length := by
  unfold entryRecord at h
  split at h
  · exact absurd h (by simp)
  · split at h
    · exact absurd h (by simp)
    · split at h
      · rename_i art hart hgt
        cases h
        simpa [mkRecord] using hgt
      · exact absurd h (by simp)

/-- C1 counterexample: an article whose cleaned body text has length
exactly 200 — hence length at least 200, which the claim says is accepted
— is discarded (the code tests strictly greater than 200 at line 178);
with one more character the same pipeline emits the record, so the
rejection is due only to the threshold comparison. -/
theorem C1_counterexample :
    (cleanText c1Raw200.text).length = 200 ∧
      search_rss_feeds c1Env200 "news".data 5 = [] ∧
      search_rss_feeds c1Env201 "news".data 5 = [c1Record] := by
  refine ⟨by decide, by decide, by decide⟩

/-- C1 (amended): every record in the list returned by
`search_rss_feeds` has cleaned body text of length strictly greater than
200 characters; a scraped article whose cleaned body text has length at
most 200 — including exactly 200 — is discarded and never appears. -/
theorem C1_amended_record_text_gt_200 (env : Env) (keyword : List Char) (m : Int)
    (r : Record) (hr : r ∈ search_rss_feeds env keyword m) : 200 < r.text.length := by
  rw [search_eq_flatten] at hr
  rcases List.mem_flatten.mp hr with ⟨l, hl, hrl⟩
  rcases List.mem_map.mp hl with ⟨src, hsrc, rfl⟩
  unfold sourceRecords at hrl
  rcases hpf : processFeeds env (keyword.map lowerChar) src.1 keyword m src.2 []
    with e | res <;> rw [hpf] at hrl
  · simp at hrl
  · rcases processFeeds_sublist_candidates env (keyword.map lowerChar) src.1 keyword
      m src.2 [] res hpf with ⟨q, heq, hsub⟩
    have hq : r ∈ q := by
      have : res = q := by simpa using heq
      rw [← this]
      exact hrl
    have hc : r ∈ sourceCandidates env (keyword.map lowerChar) src.1 keyword src.2 :=
      hsub.subset hq
    rcases List.mem_filterMap.mp hc with ⟨e, _, hrec⟩
    exact entryRecord_text_gt hrec

/-- C1 amended-claim witness: a concrete run whose single record the
theorem applies to. -/

theorem C1_amended_witness :
    c1Record ∈ search_rss_feeds c1Env201 "news".data 5 ∧ 200 < c1Record.text.length :=
  ⟨by decide, C1_amended_record_text_gt_200 c1Env201 "news".data 5 c1Record (by decide)⟩

/-- C2: for every environment, keyword, integer limit and source, the
source contributes at most `max(limit, 0)` records — so at most the limit
when it is non-negative, and none at all when it is non-positive — and
the returned list is exactly the concatenation of the per-source
contributions. -/
theorem C2_per_source_cap (env : Env) (keyword : List Char) (m : Int)
    (src : List Char × List (List Char × List Char)) :
    (sourceRecords env keyword m src).length ≤ m.toNat ∧
      (m ≤ 0 → sourceRecords env keyword m src = []) ∧
      search_rss_feeds env keyword m =
        (NEWS_SOURCES.map (sourceRecords env keyword m)).flatten := by
  refine ⟨?_, ?_, search_eq_flatten env keyword m⟩
  · unfold sourceRecords
    rcases hpf : processFeeds env (keyword.map lowerChar) src.1 keyword m src.2 []
      with e | res
    · simp
    · have := processFeeds_length_le env (keyword.map lowerChar) src.1 keyword m
        src.2 [] res hpf
      simpa using this
  · intro hm
    unfold sourceRecords
    rw [processFeeds_nonpos hm]

/-- C3: the keyword filter keeps exactly the entries in which the
lower-cased keyword occurs as a substring of the lower-cased title or
summary, and the entries it keeps stay in their original feed order
(the filtered list is a sublist of the input); as a plain function of its
arguments it is deterministic and side-effect free. -/
theorem C3_keyword_filter (keyword : List Char) (entries : List Entry) :
    List.Sublist (matchingEntries (keyword.map lowerChar) entries) entries ∧
      ∀ e, e ∈ matchingEntries (keyword.map lowerChar) entries ↔
        e ∈ entries ∧
          (containsSub (keyword.map lowerChar) (e.title.map lowerChar) = true ∨
            containsSub (keyword.map lowerChar) (e.summary.map lowerChar) = true) := by
  constructor
  · exact List.filter_sublist entries
  · intro e
    rw [matchingEntries, List.mem_filter]
    simp [matchesKeyword]

/-- C7: inside one source, a feed that yields no entries (the way a
failed fetch surfaces from the feed parser) is skipped: the source's run
over `fs1 ++ bad :: fs2` equals its run over `fs1 ++ fs2`, so entries of
the remaining feeds are still considered; moreover the feed loop
composes, so records accumulated from earlier feeds are carried into the
continuation and kept (the function returns only records — there is no
failure report a partially successful source could appear in). -/
theorem C7_failed_feed_isolated (env : Env) (kwLower srcName keyword : List Char)
    (m : Int) (fs1 fs2 : List (List Char × List Char)) (bad : List Char × List Char)
    (acc : List Record) (hbad : env.fetchFeed bad.2 = .ok []) :
    processFeeds env kwLower srcName keyword m (fs1 ++ bad :: fs2) acc =
        processFeeds env kwLower srcName keyword m (fs1 ++ fs2) acc ∧
      processFeeds env kwLower srcName keyword m (fs1 ++ fs2) acc =
        (processFeeds env kwLower srcName keyword m fs1 acc).bind
          (processFeeds env kwLower srcName keyword m fs2) := by
  have hstep : ∀ a : List Record,
      processFeeds env kwLower srcName keyword m (bad :: fs2) a =
        processFeeds env kwLower srcName keyword m fs2 a := by
    intro a
    rcases bad with ⟨bn, bu⟩
    by_cases hcap : m ≤ (a.length : Int)
    · rw [processFeeds_capped hcap, processFeeds_capped hcap]
    · rw [processFeeds_cons_ok hcap hbad, if_pos rfl]
  constructor
  · rw [processFeeds_append, processFeeds_append]
    rcases processFeeds env kwLower srcName keyword m fs1 acc with e | a
    · rfl
    · exact hstep a
  · exact processFeeds_append env kwLower srcName keyword m fs1 fs2 acc

/-- C7 witness: with a good feed before and after the empty one, removing
the empty feed does not change the source's records, and the feed loop
decomposes around the boundary. -/
theorem C7_witness :
    (c7Env.fetchFeed ("bu".data) = .ok []) ∧
      processFeeds c7Env "news".data "CNN".data "news".data 5
          ([("g".data, "gu".data)] ++ ("b".data, "bu".data) :: [("h".data, "gu".data)]) [] =
        processFeeds c7Env "news".data "CNN".data "news".data 5
          ([("g".data, "gu".data)] ++ [("h".data, "gu".data)]) [] ∧
      processFeeds c7Env "news".data "CNN".data "news".data 5
          ([("g".data, "gu".data)] ++ [("h".data, "gu".data)]) [] =
        (processFeeds c7Env "news".data "CNN".data "news".data 5
            [("g".data, "gu".data)] []).bind
          (processFeeds c7Env "news".data "CNN".data "news".data 5
            [("h".data, "gu".data)]) := by
  have h := C7_failed_feed_isolated c7Env "news".data "CNN".data "news".data 5
    [("g".data, "gu".data)] [("h".data, "gu".data)] ("b".data, "bu".data) [] (by rfl)
  exact ⟨by rfl, h.1, h.2⟩

/-- C8: a source whose processing raises is caught at its own boundary
(its contribution is empty) and every other configured source's records
still appear, contiguously, in the returned list. -/
theorem C8_source_failure_isolated (env : Env) (keyword : List Char) (m : Int)
    (s t : List Char × List (List Char × List Char)) (hs : s ∈ NEWS_SOURCES)
    (ht : t ∈ NEWS_SOURCES) (hne : s ≠ t)
    (hfail : processFeeds env (keyword.map lowerChar) s.1 keyword m s.2 [] = .error ()) :
    sourceRecords env keyword m s = [] ∧
      List.IsInfix (sourceRecords env keyword m t) (search_rss_feeds env keyword m) := by
  constructor
  · unfold sourceRecords
    rw [hfail]
  · rw [search_eq_flatten]
    exact List.infix_of_mem_flatten (List.mem_map_of_mem _ ht)

/-- C8 witness: CNN fails, contributes nothing, and BBC's record still
appears in the result. -/
theorem C8_witness :
    (processFeeds c8Env ("news".data.map lowerChar) cnnSource.1 "news".data 5
        cnnSource.2 [] = .error ()) ∧
      sourceRecords c8Env "news".data 5 cnnSource = [] ∧
      List.IsInfix (sourceRecords c8Env "news".data 5 bbcSource)
        (search_rss_feeds c8Env "news".data 5) := by
  have h := C8_source_failure_isolated c8Env "news".data 5 cnnSource bbcSource
    (by decide) (by decide) (by decide) (by rfl)
  exact ⟨by rfl, h.1, h.2⟩

/-- C9: with the environment (feed contents, article responses, clock)
fixed, the returned list is a function of keyword and limit alone — the
embedding of the sequential code is deterministic — and its order is
structural: sources contribute in configured order, and each source's
records form a sublist of its entry stream (each feed's matching entries
in feed order) passed through the acceptance step, i.e. records appear
in entry-acceptance order, never completion order. -/
theorem C9_stable_ordering (env : Env) (keyword : List Char) (m : Int) :
    search_rss_feeds env keyword m =
        (NEWS_SOURCES.map (sourceRecords env keyword m)).flatten ∧
      ∀ src, List.Sublist (sourceRecords env keyword m src)
        (sourceCandidates env (keyword.map lowerChar) src.1 keyword src.2) := by
  refine ⟨search_eq_flatten env keyword m, fun src => ?_⟩
  unfold sourceRecords
  rcases hpf : processFeeds env (keyword.map lowerChar) src.1 keyword m src.2 []
    with e | res
  · exact List.nil_sublist _
  · rcases processFeeds_sublist_candidates env (keyword.map lowerChar) src.1 keyword
      m src.2 [] res hpf with ⟨q, heq, hsub⟩
    have : res = q := by simpa using heq
    rw [this]
    exact hsub

/-- C10: `scrape_article` is total at its interface: whatever the
download/parse/nlp oracle does, it returns either `none` (any exception,
with no failure reason — the return type carries none) or a complete
dictionary with all nine fields (`url`, `title`, `authors`,
`publish_date`, `text`, `summary`, `keywords`, `top_image`,
`scraped_at`) populated from the parsed article, the cleaned texts and
the clock. -/
theorem C10_scrape_article_total (env : Env) (url : List Char) :
    scrape_article env url = none ∨
      ∃ raw, env.scrape url = some raw ∧
        scrape_article env url = some
          { url := url
            title := raw.title
            authors := raw.authors
            publishDate := raw.publishDate
            text := cleanText raw.text
            summary := cleanText raw.summary
            keywords := raw.keywords
            topImage := raw.topImage
            scrapedAt := env.clock url } := by
  rcases h : env.scrape url with _ | raw
  · left
    unfold scrape_article
    rw [h]
  · right
    refine ⟨raw, rfl, ?_⟩
    unfold scrape_article
    rw [h]

/-- C2 witness: the cap theorem at a concrete run, at a negative and at a
positive limit. -/
theorem C2_witness :
    sourceRecords c1Env201 "news".data (-3) cnnSource = [] ∧
      (sourceRecords c1Env201 "news".data 5 cnnSource).length ≤ (5 : Int).toNat :=
  ⟨(C2_per_source_cap c1Env201 "news".data (-3) cnnSource).2.1 (by decide),
    (C2_per_source_cap c1Env201 "news".data 5 cnnSource).1⟩
